import Mathlib

/-!
Verification of the `Tiling` class of `AtomPos/tiling.py` (TEMimage).

The Python source is shallowly embedded: machine floats become exact
rationals (`ℚ`), NumPy / Python lists become `List`, Python's signed
indexing (negative indices wrap from the end, out-of-range raises
`IndexError`) is modelled by `pyResolve`/`pyGet?`/`pySet?` returning
`Option`, and exceptions are modelled by `Option`/`Except` failure.

`np.argsort` on the `arctan2` key array is modelled by an index sort that
orders ties by original position (`np.argsort` runs a plain insertion
sort — which is stable — on arrays below its small-array threshold, and
every vertex list sorted by this program is such an array).  The
comparison of `arctan2` values is carried out exactly on `ℚ` by
quadrant-class and cross-product tests, which agree with the ordering of
the real-valued `arctan2`.
-/

namespace TEMimage

/-! ### Python list indexing -/

/-- Resolve a Python index `i` against a list of length `n` :
nonnegative indices are used as is, negative indices wrap from the end,
anything else is an `IndexError` (`none`). -/
def pyResolve (n : ℕ) (i : ℤ) : Option ℕ :=
  if 0 ≤ i ∧ i < (n : ℤ) then some i.toNat
  else if -(n : ℤ) ≤ i ∧ i < 0 then some (i + (n : ℤ)).toNat
  else none

/-- Python `l[i]` (read). -/
def pyGet? {α : Type} (l : List α) (i : ℤ) : Option α :=
  (pyResolve l.length i).bind fun k => l.get? k

/-- Python `l[i] = a` (write). -/
def pySet? {α : Type} (l : List α) (i : ℤ) (a : α) : Option (List α) :=
  (pyResolve l.length i).map fun k => l.set k a

/-! ### Exact comparison of `np.arctan2` values

`sort_clockwise` sorts by the float keys `arctan2(dx, dy)`.
`arctan2(a, b)` is the angle of the planar vector `(b, a)`, taken in
`(-π, π]`.  We compare two such angles exactly: first by the quadrant
class of the key (lower half-plane `< 0 = < `upper half-plane` < π`),
then, inside an open half-plane, by the sign of the cross product. -/

/-- Coarse class of `arctan2 a b` for key `k = (a, b)`:
`0` for angles in `(-π, 0)` (i.e. `a < 0`), `1` for angle `0`
(`a = 0, b ≥ 0`; NumPy has `arctan2 0 0 = 0`), `2` for angles in
`(0, π)` (`a > 0`) and `3` for angle `π` (`a = 0, b < 0`). -/
def atan2Class (k : ℚ × ℚ) : ℕ :=
  if k.1 < 0 then 0
  else if k.1 = 0 then (if 0 ≤ k.2 then 1 else 3)
  else 2

/-- Exact rendering of `arctan2 k₁.1 k₁.2 < arctan2 k₂.1 k₂.2` :
distinct classes compare by class; inside an open half-plane the cross
product `k₁.2 * k₂.1 - k₂.2 * k₁.1` of the two vectors is positive
exactly when the first angle is smaller. -/
def atan2Lt (k₁ k₂ : ℚ × ℚ) : Prop :=
  atan2Class k₁ < atan2Class k₂ ∨
    (atan2Class k₁ = atan2Class k₂ ∧ (atan2Class k₁ = 0 ∨ atan2Class k₁ = 2) ∧
      0 < k₁.2 * k₂.1 - k₂.2 * k₁.1)

instance : DecidableEq (ℚ × ℚ) := inferInstance

instance atan2Lt.decidable : ∀ k₁ k₂, Decidable (atan2Lt k₁ k₂) := fun k₁ k₂ => by
  unfold atan2Lt; infer_instance

/-- Order key whose lexicographic order coincides with the order of
`arctan2` values: the class, then (inside an open half-plane) the
negated cotangent `-(b/a)`, which increases with the angle. -/
def angOrd (k : ℚ × ℚ) : ℕ × ℚ :=
  (atan2Class k, if k.1 = 0 then 0 else -(k.2 / k.1))

/-- Strict lexicographic order on `ℕ × ℚ`. -/
def pairLt (x y : ℕ × ℚ) : Prop :=
  x.1 < y.1 ∨ (x.1 = y.1 ∧ x.2 < y.2)

theorem atan2Class_of_neg {a b : ℚ} (h : a < 0) : atan2Class (a, b) = 0 := by
  simp [atan2Class, h]

theorem atan2Class_of_pos {a b : ℚ} (h : 0 < a) : atan2Class (a, b) = 2 := by
  simp [atan2Class, asymm h, h.ne']

theorem atan2Class_of_zero_nonneg {b : ℚ} (hb : 0 ≤ b) : atan2Class (0, b) = 1 := by
  simp [atan2Class, hb]

theorem atan2Class_of_zero_neg {b : ℚ} (hb : b < 0) : atan2Class (0, b) = 3 := by
  simp [atan2Class, not_le.mpr hb]

theorem angOrd_snd_of_zero {b : ℚ} : (angOrd (0, b)).2 = 0 := by
  simp [angOrd]

theorem angOrd_snd_of_ne {a b : ℚ} (h : a ≠ 0) : (angOrd (a, b)).2 = -(b / a) := by
  simp [angOrd, h]

theorem angOrd_fst (k : ℚ × ℚ) : (angOrd k).1 = atan2Class k := rfl

/-- Inside a half-plane (`a₁` and `a₂` of equal sign), the cross-product
test agrees with the comparison of the negated cotangents. -/
theorem cross_iff_negcot {a₁ b₁ a₂ b₂ : ℚ} (h : 0 < a₁ * a₂) :
    0 < b₁ * a₂ - b₂ * a₁ ↔ -(b₁ / a₁) < -(b₂ / a₂) := by
  rcases lt_trichotomy a₁ 0 with h₁ | h₁ | h₁
  · have h₂ : a₂ < 0 := by nlinarith
    rw [neg_lt_neg_iff, ← neg_div_neg_eq b₂ a₂, ← neg_div_neg_eq b₁ a₁,
      div_lt_div_iff₀ (by linarith) (by linarith)]
    constructor <;> intro hc <;> nlinarith
  · subst h₁; simp at h
  · have h₂ : 0 < a₂ := by nlinarith
    rw [neg_lt_neg_iff, div_lt_div_iff₀ h₂ h₁]
    constructor <;> intro hc <;> nlinarith

theorem atan2Lt_iff_pairLt (k₁ k₂ : ℚ × ℚ) :
    atan2Lt k₁ k₂ ↔ pairLt (angOrd k₁) (angOrd k₂) := by
  obtain ⟨a₁, b₁⟩ := k₁
  obtain ⟨a₂, b₂⟩ := k₂
  have hsplit : ∀ a b : ℚ, atan2Class (a, b) = 0 ∧ a < 0 ∨
      (atan2Class (a, b) = 1 ∨ atan2Class (a, b) = 3) ∧ a = 0 ∨
      atan2Class (a, b) = 2 ∧ 0 < a := by
    intro a b
    rcases lt_trichotomy a 0 with h | h | h
    · exact Or.inl ⟨atan2Class_of_neg h, h⟩
    · subst h
      rcases le_or_lt 0 b with hb | hb
      · exact Or.inr (Or.inl ⟨Or.inl (atan2Class_of_zero_nonneg hb), rfl⟩)
      · exact Or.inr (Or.inl ⟨Or.inr (atan2Class_of_zero_neg hb), rfl⟩)
    · exact Or.inr (Or.inr ⟨atan2Class_of_pos h, h⟩)
  rcases hsplit a₁ b₁ with ⟨hc₁, ha₁⟩ | ⟨hc₁, ha₁⟩ | ⟨hc₁, ha₁⟩ <;>
    rcases hsplit a₂ b₂ with ⟨hc₂, ha₂⟩ | ⟨hc₂, ha₂⟩ | ⟨hc₂, ha₂⟩
  · -- both in the lower half-plane: cross-product test
    simp only [atan2Lt, pairLt, angOrd_fst, hc₁, hc₂,
      angOrd_snd_of_ne ha₁.ne, angOrd_snd_of_ne ha₂.ne,
      cross_iff_negcot (mul_pos_of_neg_of_neg ha₁ ha₂)]
    simp
  · simp only [atan2Lt, pairLt, angOrd_fst, hc₁]
    rcases hc₂ with hc₂ | hc₂ <;> simp [hc₂]
  · simp only [atan2Lt, pairLt, angOrd_fst, hc₁, hc₂]; simp
  · simp only [atan2Lt, pairLt, angOrd_fst, hc₂]
    rcases hc₁ with hc₁ | hc₁ <;> simp [hc₁]
  · subst ha₁; subst ha₂
    simp only [atan2Lt, pairLt, angOrd_fst, angOrd_snd_of_zero]
    rcases hc₁ with hc₁ | hc₁ <;> rcases hc₂ with hc₂ | hc₂ <;> simp [hc₁, hc₂]
  · simp only [atan2Lt, pairLt, angOrd_fst, hc₂]
    subst ha₁
    rcases hc₁ with hc₁ | hc₁ <;> simp [hc₁, angOrd_snd_of_zero]
  · simp only [atan2Lt, pairLt, angOrd_fst, hc₁, hc₂]; simp
  · simp only [atan2Lt, pairLt, angOrd_fst, hc₁]
    subst ha₂
    rcases hc₂ with hc₂ | hc₂ <;> simp [hc₂, angOrd_snd_of_zero]
  · -- both in the upper half-plane: cross-product test
    simp only [atan2Lt, pairLt, angOrd_fst, hc₁, hc₂,
      angOrd_snd_of_ne ha₁.ne', angOrd_snd_of_ne ha₂.ne',
      cross_iff_negcot (mul_pos ha₁ ha₂)]
    simp

theorem pairLt_irrefl (x : ℕ × ℚ) : ¬ pairLt x x := by
  rintro (h | ⟨-, h⟩)
  · omega
  · exact absurd h (lt_irrefl _)

theorem pairLt_trans {x y z : ℕ × ℚ} (h₁ : pairLt x y) (h₂ : pairLt y z) : pairLt x z := by
  rcases h₁ with h₁ | ⟨e₁, h₁⟩ <;> rcases h₂ with h₂ | ⟨e₂, h₂⟩
  · exact Or.inl (h₁.trans h₂)
  · exact Or.inl (e₂ ▸ h₁)
  · exact Or.inl (e₁ ▸ h₂)
  · exact Or.inr ⟨e₁.trans e₂, h₁.trans h₂⟩

theorem pairLt_asymm {x y : ℕ × ℚ} (h₁ : pairLt x y) (h₂ : pairLt y x) : False := by
  rcases h₁ with h₁ | ⟨e₁, h₁⟩ <;> rcases h₂ with h₂ | ⟨e₂, h₂⟩
  · omega
  · omega
  · omega
  · exact absurd h₂ (asymm h₁)

theorem pairLt_trichotomy (x y : ℕ × ℚ) : pairLt x y ∨ x = y ∨ pairLt y x := by
  rcases lt_trichotomy x.1 y.1 with h | h | h
  · exact Or.inl (Or.inl h)
  · rcases lt_trichotomy x.2 y.2 with h₂ | h₂ | h₂
    · exact Or.inl (Or.inr ⟨h, h₂⟩)
    · exact Or.inr (Or.inl (Prod.ext h h₂))
    · exact Or.inr (Or.inr (Or.inr ⟨h.symm, h₂⟩))
  · exact Or.inr (Or.inr (Or.inl h))

theorem eq_of_not_pairLt {x y : ℕ × ℚ} (h₁ : ¬ pairLt x y) (h₂ : ¬ pairLt y x) : x = y := by
  rcases pairLt_trichotomy x y with h | h | h
  · exact absurd h h₁
  · exact h
  · exact absurd h h₂

/-! ### `np.argsort`, modelled as a stable index sort -/

/-- Comparison used to sort the index array: first the `arctan2` key,
with ties (equal float keys) broken by the original position. -/
def keyIdxLe (keys : List (ℚ × ℚ)) (i j : ℕ) : Prop :=
  atan2Lt (keys.getD i (0, 0)) (keys.getD j (0, 0)) ∨
    (¬ atan2Lt (keys.getD i (0, 0)) (keys.getD j (0, 0)) ∧
      ¬ atan2Lt (keys.getD j (0, 0)) (keys.getD i (0, 0)) ∧ i ≤ j)

instance keyIdxLe.decidable (keys : List (ℚ × ℚ)) : DecidableRel (keyIdxLe keys) :=
  fun i j => by unfold keyIdxLe; infer_instance

instance keyIdxLe.isTotal (keys : List (ℚ × ℚ)) : IsTotal ℕ (keyIdxLe keys) := by
  constructor
  intro i j
  unfold keyIdxLe
  rcases pairLt_trichotomy (angOrd (keys.getD i (0, 0))) (angOrd (keys.getD j (0, 0))) with
    h | h | h
  · exact Or.inl (Or.inl ((atan2Lt_iff_pairLt _ _).mpr h))
  · have h₁ : ¬ atan2Lt (keys.getD i (0, 0)) (keys.getD j (0, 0)) := by
      rw [atan2Lt_iff_pairLt, h]; exact pairLt_irrefl _
    have h₂ : ¬ atan2Lt (keys.getD j (0, 0)) (keys.getD i (0, 0)) := by
      rw [atan2Lt_iff_pairLt, h]; exact pairLt_irrefl _
    rcases Nat.le_total i j with hij | hij
    · exact Or.inl (Or.inr ⟨h₁, h₂, hij⟩)
    · exact Or.inr (Or.inr ⟨h₂, h₁, hij⟩)
  · exact Or.inr (Or.inl ((atan2Lt_iff_pairLt _ _).mpr h))

instance keyIdxLe.isTrans (keys : List (ℚ × ℚ)) : IsTrans ℕ (keyIdxLe keys) := by
  constructor
  intro i j k h₁ h₂
  unfold keyIdxLe at h₁ h₂ ⊢
  rw [atan2Lt_iff_pairLt] at h₁ h₂ ⊢
  rw [atan2Lt_iff_pairLt] at h₁ h₂ ⊢
  rcases h₁ with h₁ | ⟨hn₁, hn₁', hij⟩
  · rcases h₂ with h₂ | ⟨hn₂, hn₂', hjk⟩
    · exact Or.inl (pairLt_trans h₁ h₂)
    · exact Or.inl ((eq_of_not_pairLt hn₂ hn₂') ▸ h₁)
  · have hij' := eq_of_not_pairLt hn₁ hn₁'
    rcases h₂ with h₂ | ⟨hn₂, hn₂', hjk⟩
    · exact Or.inl (hij' ▸ h₂)
    · have hjk' := eq_of_not_pairLt hn₂ hn₂'
      refine Or.inr ⟨?_, ?_, hij.trans hjk⟩
      · rw [hij', hjk']; exact pairLt_irrefl _
      · rw [hij', hjk']; exact pairLt_irrefl _

/-- `np.argsort(keys)` : the permutation of `[0, …, n-1]` ordering the
keys, with ties kept in original order (see the module docstring). -/
def argsort (keys : List (ℚ × ℚ)) : List ℕ :=
  List.insertionSort (keyIdxLe keys) (List.range keys.length)

theorem argsort_perm (keys : List (ℚ × ℚ)) :
    List.Perm (argsort keys) (List.range keys.length) :=
  List.perm_insertionSort _ _

theorem argsort_length (keys : List (ℚ × ℚ)) : (argsort keys).length = keys.length := by
  rw [(argsort_perm keys).length_eq, List.length_range]

theorem argsort_sorted (keys : List (ℚ × ℚ)) : List.Sorted (keyIdxLe keys) (argsort keys) :=
  List.sorted_insertionSort _ _

/-! ### The `Tiling` class -/

/-- `np.mean(ps, axis=0)` of a list of 2-D rows (the mass centre). -/
def npMean (ps : List (ℚ × ℚ)) : ℚ × ℚ :=
  ((ps.map Prod.fst).sum / ps.length, (ps.map Prod.snd).sum / ps.length)

/-- `Tiling.sort_clockwise` : fancy-index the points by `vs`, subtract
the mass centre, and reorder `vs` by `np.argsort` of the
`arctan2(dx, dy)` keys.  `none` models the `IndexError` raised when a
vertex index is out of range. -/
def sort_clockwise (points : List (ℚ × ℚ)) (vs : List ℤ) : Option (List ℤ) := do
  let p ← vs.mapM (pyGet? points)
  let c := npMean p
  let delta := p.map fun q => (q.1 - c.1, q.2 - c.2)
  pure ((argsort delta).map fun i => vs.getD i 0)

/-- `Tiling.get_edges_of_tile` : consecutive pairs of the sorted vertex
list plus the closing pair `(last, first)`; `sorted_vertices[-1]` raises
`IndexError` on an empty list. -/
def get_edges_of_tile (sv : List ℤ) : Option (List (ℤ × ℤ)) :=
  match sv with
  | [] => none
  | v0 :: rest =>
      some ((sv.zip (sv.drop 1)) ++ [(List.getLast (v0 :: rest) (List.cons_ne_nil v0 rest), v0)])

/-- The `Tiling` state: `points`, per-tile `vertices`, per-tile
`neighbors` and the global `edges` array.  The derived scalars
`ntiles`/`nedges`/`npoints` are the lengths of these lists (they are set
once in `__init__` and the list lengths never change afterwards). -/
structure Tiling where
  points : List (ℚ × ℚ)
  vertices : List (List ℤ)
  neighbors : List (List ℤ)
  edges : List (ℤ × ℤ)
deriving DecidableEq

def Tiling.ntiles (T : Tiling) : ℕ := T.vertices.length

def Tiling.nedges (T : Tiling) : ℕ := T.edges.length

def Tiling.npoints (T : Tiling) : ℕ := T.points.length

/-- `Tiling.__init__` on the path where `vertices` is supplied
explicitly: every supplied vertex list is passed through
`sort_clockwise`; `neighbors` and `edges` are stored as given. -/
def Tiling.mk_explicit (points : List (ℚ × ℚ)) (vertices neighbors : List (List ℤ))
    (edges : List (ℤ × ℤ)) : Option Tiling := do
  let vs ← vertices.mapM (sort_clockwise points)
  pure ⟨points, vs, neighbors, edges⟩

/-- `Tiling.__init__` on the path where `vertices` is omitted: the
Delaunay triangulation oracle's output (`tri.vertices.tolist()`,
`tri.neighbors.tolist()`) is taken as the input `tv`/`tn`.  The tile
lists are stored exactly as the oracle returned them; `sort_clockwise`
is applied only to the temporary copy handed to `get_edges_of_tile`,
and an edge is kept only when `e[1] > e[0]`. -/
def Tiling.mk_oracle (points : List (ℚ × ℚ)) (tv tn : List (List ℤ)) : Option Tiling := do
  let ess ← tv.mapM fun v => do
    let sv ← sort_clockwise points v
    let es ← get_edges_of_tile sv
    pure (es.filter fun e => decide (e.1 < e.2))
  pure ⟨points, tv, tn, ess.flatten⟩

/-! ### `Tiling.get_dual` -/

/-- `dvertices[i].append(x)` / `dneighbors[i].append(x)` with Python
index semantics on `i`. -/
def pyAppendAt (l : List (List ℤ)) (i : ℤ) (x : ℤ) : Option (List (List ℤ)) :=
  (pyResolve l.length i).map fun k => l.set k (l.getD k [] ++ [x])

/-- The dual points: `np.mean(self.points[self.vertices[t]], axis=0)`
for each tile `t`, in tile order. -/
def dualPoints (T : Tiling) : Option (List (ℚ × ℚ)) :=
  (List.range T.ntiles).mapM fun t => do
    let ps ← (T.vertices.getD t []).mapM (pyGet? T.points)
    pure (npMean ps)

/-- The dual edges: for each tile `t` and each `n` in
`self.neighbors[t]`, emit `[t, n]` exactly when `0 <= n < t`. -/
def dualEdges (T : Tiling) : Option (List (ℤ × ℤ)) := do
  let rows ← (List.range T.ntiles).mapM fun (t : ℕ) => do
    let row ← pyGet? T.neighbors (t : ℤ)
    pure ((row.filter fun n => decide (0 ≤ n ∧ n < (t : ℤ))).map fun n => ((t : ℤ), n))
  pure rows.flatten

/-- The dual vertex lists: `dvertices[v].append(t)` for each tile `t`
and each `v` in `self.vertices[t]`, starting from `npoints` empty
lists. -/
def dualVerts (T : Tiling) : Option (List (List ℤ)) :=
  (List.range T.ntiles).foldlM
    (fun acc t => (T.vertices.getD t []).foldlM (fun acc2 v => pyAppendAt acc2 v (t : ℤ)) acc)
    (List.replicate T.npoints [])

/-- The dual neighbor lists: for each stored edge `(i, j)`,
`dneighbors[i].append(j)` and `dneighbors[j].append(i)`. -/
def dualNeighbors (T : Tiling) : Option (List (List ℤ)) :=
  T.edges.foldlM
    (fun acc e => (pyAppendAt acc e.1 e.2).bind fun acc1 => pyAppendAt acc1 e.2 e.1)
    (List.replicate T.npoints [])

/-- `Tiling.get_dual` : build the dual data and hand it to the
constructor (explicit-vertices path, which clockwise-sorts the dual
vertex lists against the dual points). -/
def Tiling.get_dual (T : Tiling) : Option Tiling := do
  let dp ← dualPoints T
  let de ← dualEdges T
  let dv ← dualVerts T
  let dn ← dualNeighbors T
  Tiling.mk_explicit dp dv dn de

/-! ### `Tiling.flip` -/

/-- A Python exception escaping `flip` : an out-of-range subscript, or
an unbound local (`A`/`B`/`C`/`D` never assigned in the neighbor
scan). -/
inductive PyErr where
  | indexError : PyErr
  | nameError : PyErr
deriving DecidableEq

/-- Result of a `flip` call: normal completion with the new state, the
reported `"FLIP: edge is not part of two triangles"` early return with
the (unchanged) state, or a Python exception. -/
inductive FlipRes where
  | ok (T : Tiling) : FlipRes
  | notFlippable (T : Tiling) : FlipRes
  | err (e : PyErr) : FlipRes
deriving DecidableEq

def ofOpt {α : Type} (o : Option α) (e : PyErr) : Except PyErr α :=
  match o with
  | none => Except.error e
  | some a => Except.ok a

/-- The scan `for t in range(self.ntiles)` of `flip` : tiles with
exactly 3 vertices of which exactly 2 positions hold `p1` or `p2`,
paired with the remaining vertex `v[~index][0]`. -/
def flipCandidates (T : Tiling) (p1 p2 : ℤ) : List (ℕ × ℤ) :=
  (List.range T.ntiles).filterMap fun t =>
    let v := T.vertices.getD t []
    if v.length = 3 ∧ (v.filter fun x => decide (x = p1 ∨ x = p2)).length = 2 then
      some (t, ((v.filter fun x => ! decide (x = p1 ∨ x = p2)).headD 0))
    else none

/-- One neighbor loop of `flip` : walk `row`, and for each `n` test
membership of `p2` (resp. `p1`) in `self.vertices[n]` (Python indexing:
`n = -1` resolves to the **last** tile's vertex list); return the last
`n` whose tile misses `p2` (the `A`/`B` slot) and the last `n` whose
tile misses `p1` (the `D`/`C` slot), `none` when never assigned. -/
def outerScan (T : Tiling) (row : List ℤ) (p1 p2 : ℤ) : Except PyErr (Option ℤ × Option ℤ) :=
  row.foldlM
    (fun acc n =>
      match pyGet? T.vertices n with
      | none => Except.error PyErr.indexError
      | some vn =>
          Except.ok ((if p2 ∈ vn then acc.1 else some n), (if p1 ∈ vn then acc.2 else some n)))
    (none, none)

/-- The mutation phase of `flip`, in source order: read the two
neighbor rows, scan them for `A`/`D` and `B`/`C`, rewrite
`neighbors[t1]`, `neighbors[t2]`, `neighbors[D]`, `neighbors[B]`, then
the two vertex lists, then the stored edge.  An unbound `A`/`B`/`C`/`D`
local surfaces as `nameError` at its first use (the list expression of
the corresponding neighbor write), before that write happens. -/
def flipGo (T : Tiling) (eIdx : ℕ) (p1 p2 : ℤ) (t1 t2 : ℕ) (e1 e2 : ℤ) :
    Except PyErr Tiling :=
  match pyGet? T.neighbors (t1 : ℤ) with
  | none => .error .indexError
  | some row1 =>
  match pyGet? T.neighbors (t2 : ℤ) with
  | none => .error .indexError
  | some row2 =>
  match outerScan T row1 p1 p2 with
  | .error err => .error err
  | .ok ad =>
  match outerScan T row2 p1 p2 with
  | .error err => .error err
  | .ok bc =>
  match ad.1 with
  | none => .error .nameError
  | some A =>
  match bc.1 with
  | none => .error .nameError
  | some B =>
  match pySet? T.neighbors (t1 : ℤ) [(t2 : ℤ), A, B] with
  | none => .error .indexError
  | some nb1 =>
  match bc.2 with
  | none => .error .nameError
  | some C =>
  match ad.2 with
  | none => .error .nameError
  | some D =>
  match pySet? nb1 (t2 : ℤ) [(t1 : ℤ), C, D] with
  | none => .error .indexError
  | some nb2 =>
  match pyGet? nb2 D with
  | none => .error .indexError
  | some rowD =>
  match pySet? nb2 D (rowD.map fun n => if n = (t1 : ℤ) then (t2 : ℤ) else n) with
  | none => .error .indexError
  | some nb3 =>
  match pyGet? nb3 B with
  | none => .error .indexError
  | some rowB =>
  match pySet? nb3 B (rowB.map fun n => if n = (t2 : ℤ) then (t1 : ℤ) else n) with
  | none => .error .indexError
  | some nb4 =>
  match sort_clockwise T.points [e1, e2, p1] with
  | none => .error .indexError
  | some sv1 =>
  match sort_clockwise T.points [e1, e2, p2] with
  | none => .error .indexError
  | some sv2 =>
    .ok ⟨T.points, (T.vertices.set t1 sv1).set t2 sv2, nb4, T.edges.set eIdx (e1, e2)⟩

/-- `Tiling.flip` : read `p1, p2 = self.edges[edge]`, find the tiles
containing the edge, and either report
`"FLIP: edge is not part of two triangles"` and return with the state
untouched, or run the mutation phase. -/
def Tiling.flip (T : Tiling) (edge : ℤ) : FlipRes :=
  match pyResolve T.edges.length edge with
  | none => .err .indexError
  | some eIdx =>
    let p := T.edges.getD eIdx (0, 0)
    match flipCandidates T p.1 p.2 with
    | [(t1, e1), (t2, e2)] =>
      match flipGo T eIdx p.1 p.2 t1 t2 e1 e2 with
      | .ok T2 => .ok T2
      | .error e => .err e
    | _ => .notFlippable T

/-! ### Concrete instances used by the claims -/

/-- The four corner points of the spec's concrete flip scenario. -/
def sqPoints : List (ℚ × ℚ) := [(0, 0), (1, 0), (1, 1), (0, 1)]

/-- The tiling the constructor builds from the scenario's input
(both triangles clockwise-sorted by `sort_clockwise`). -/
def sqTiling : Tiling := ⟨sqPoints, [[0, 2, 1], [0, 3, 2]], [[1], [0]], [(0, 2)]⟩

/-- Three non-collinear points. -/
def triPoints : List (ℚ × ℚ) := [(0, 0), (1, 0), (0, 1)]

/-- The tiling of the oracle-path constructor on the single
counter-clockwise oracle triangle `[0, 1, 2]`. -/
def oracleTri : Tiling := ⟨triPoints, [[0, 1, 2]], [[-1, -1, -1]], [(0, 2)]⟩

/-- The oracle-path constructor on a repeated oracle triangle. -/
def dupTiling : Tiling :=
  ⟨triPoints, [[0, 1, 2], [0, 1, 2]], [[-1, -1, -1], [-1, -1, -1]], [(0, 2), (0, 2)]⟩

/-- A single clockwise-sorted triangle with only boundary edges. -/
def oneTriangle : Tiling := ⟨triPoints, [[0, 2, 1]], [[-1, -1, -1]], [(0, 1)]⟩

/-- Seven points: the unit square of the flip scenario plus a second,
disjoint triangle far to the right. -/
def zPoints : List (ℚ × ℚ) := [(0, 0), (1, 0), (1, 1), (0, 1), (3, 0), (4, 0), (3, 1)]

/-- A tiling whose neighbor lists contain the `-1` sentinel: two
triangles sharing edge `(0, 2)`, a detached triangle `[4, 6, 5]` used
as outer neighbor, and a last tile `[2, 5, 4]`. -/
def Tz : Tiling :=
  ⟨zPoints, [[0, 2, 1], [0, 3, 2], [4, 6, 5], [2, 5, 4]],
    [[2, -1], [2], [1, 9], [0, 7]], [(0, 2)]⟩

/-- The state `Tz.flip 0` produces. -/
def Tz2 : Tiling :=
  ⟨zPoints, [[0, 3, 1], [3, 2, 1], [4, 6, 5], [2, 5, 4]],
    [[1, 2, 2], [0, 2, -1], [0, 9], [1, 7]], [(1, 3)]⟩

/-- Four points with a duplicated coordinate, so that positions `1` and
`2` of the vertex list get coincident `arctan2` keys. -/
def tiePoints : List (ℚ × ℚ) := [(0, 0), (2, 0), (2, 0), (0, 2)]

/-- The key list `sort_clockwise` computes for `tiePoints` and the
vertex list `[0, 1, 2, 3]` (centroid `(1, 1/2)`). -/
def tieKeys : List (ℚ × ℚ) := [(-1, -1/2), (1, -1/2), (1, -1/2), (-1, 3/2)]

/-- `get_dual` with the receiver state threaded statement by statement.
No statement of the source assigns to a field of `self` (the method
only reads `self` and builds fresh local lists), so each step passes
the receiver through unchanged. -/
def get_dualS (T : Tiling) : Option Tiling × Tiling :=
  let s1 := (dualPoints T, T)
  let s2 := (dualEdges s1.2, s1.2)
  let s3 := (dualVerts s2.2, s2.2)
  let s4 := (dualNeighbors s3.2, s3.2)
  (match s1.1, s2.1, s3.1, s4.1 with
    | some dp, some de, some dv, some dn => Tiling.mk_explicit dp dv dn de
    | _, _, _, _ => none, s4.2)

/-- The dual `get_dual` builds from the single triangle: one point (the
centroid), one dual tile per original point. -/
def oneTriDual : Tiling := ⟨[(1/3, 1/3)], [[0], [0], [0]], [[1], [0], []], []⟩

/-! ### Helper lemmas on `mapM` over `Option` -/

theorem mapM_forall2 {α β : Type} {f : α → Option β} :
    ∀ {l : List α} {l2 : List β}, l.mapM f = some l2 →
      List.Forall₂ (fun a b => f a = some b) l l2 := by
  intro l
  induction l with
  | nil => intro l2 h; simp only [List.mapM_nil, Option.pure_def, Option.some_inj] at h
           exact h ▸ List.Forall₂.nil
  | cons a l ih =>
    intro l2 h
    simp only [List.mapM_cons, Option.pure_def, Option.bind_eq_bind, Option.bind_eq_some] at h
    obtain ⟨b, hb, l2', hl2', heq⟩ := h
    exact (Option.some_inj.mp heq) ▸ List.Forall₂.cons hb (ih hl2')

theorem mapM_some_length {α β : Type} {f : α → Option β} {l : List α} {l2 : List β}
    (h : l.mapM f = some l2) : l2.length = l.length :=
  (mapM_forall2 h).length_eq.symm

theorem forall2_mem_right {α β : Type} {R : α → β → Prop} {l1 : List α} {l2 : List β}
    (h : List.Forall₂ R l1 l2) : ∀ b ∈ l2, ∃ a ∈ l1, R a b := by
  induction h with
  | nil => intro b hb; cases hb
  | cons hR _ ih =>
    intro b hb
    rcases List.mem_cons.mp hb with hb | hb
    · exact ⟨_, List.mem_cons_self _ _, hb ▸ hR⟩
    · obtain ⟨a, ha, hR'⟩ := ih b hb
      exact ⟨a, List.mem_cons_of_mem _ ha, hR'⟩

theorem mapM_mem {α β : Type} {f : α → Option β} {l : List α} {l2 : List β}
    (h : l.mapM f = some l2) : ∀ b ∈ l2, ∃ a ∈ l, f a = some b :=
  forall2_mem_right (mapM_forall2 h)

/-! ### Structural lemmas about `sort_clockwise` and `flipGo` -/

theorem map_getD_range {α : Type} (l : List α) (d : α) :
    (List.range l.length).map (fun i => l.getD i d) = l := by
  apply List.ext_getElem
  · simp
  · intro i h1 h2
    simp [List.getD_eq_getElem?_getD, List.getElem?_eq_getElem h2]

/-- A successful `sort_clockwise` returns a list of the same length. -/
theorem sort_clockwise_length {points : List (ℚ × ℚ)} {vs l : List ℤ}
    (h : sort_clockwise points vs = some l) : l.length = vs.length := by
  unfold sort_clockwise at h
  simp only [Option.pure_def, Option.bind_eq_bind, Option.bind_eq_some, Option.some_inj] at h
  obtain ⟨p, hp, h2⟩ := h
  rw [← h2]
  simp [argsort_length, mapM_some_length hp]

/-- A successful `sort_clockwise` returns a permutation of its input. -/
theorem sort_clockwise_perm {points : List (ℚ × ℚ)} {vs l : List ℤ}
    (h : sort_clockwise points vs = some l) : List.Perm l vs := by
  unfold sort_clockwise at h
  simp only [Option.pure_def, Option.bind_eq_bind, Option.bind_eq_some, Option.some_inj] at h
  obtain ⟨p, hp, h2⟩ := h
  rw [← h2]
  have hkeys : (p.map fun q =>
      (q.1 - (npMean p).1, q.2 - (npMean p).2)).length = vs.length := by
    simp [mapM_some_length hp]
  refine ((argsort_perm _).map _).trans ?_
  rw [hkeys, map_getD_range vs 0]

theorem getD_set_ne {α : Type} (l : List α) {i j : ℕ} (a d : α) (h : i ≠ j) :
    (l.set i a).getD j d = l.getD j d := by
  simp [List.getD_eq_getElem?_getD, List.getElem?_set_ne h]

theorem sum_map_length_of_all_three {L : List (List ℤ)} (h : ∀ v ∈ L, v.length = 3) :
    (L.map List.length).sum = 3 * L.length := by
  induction L with
  | nil => simp
  | cons a L ih =>
    have ha := h a (List.mem_cons_self _ _)
    have ih' := ih fun v hv => h v (List.mem_cons_of_mem _ hv)
    simp only [List.map_cons, List.sum_cons, ha, ih', List.length_cons]
    ring

/-- What a successful mutation phase produces: the points survive, the
two tiles are rewritten to the clockwise-sorted new triangles, some
neighbor table is installed, and exactly the flipped edge is
overwritten with `(e1, e2)`. -/
theorem flipGo_ok_shape {T : Tiling} {eIdx : ℕ} {p1 p2 : ℤ} {t1 t2 : ℕ} {e1 e2 : ℤ} {T2 : Tiling}
    (h : flipGo T eIdx p1 p2 t1 t2 e1 e2 = Except.ok T2) :
    ∃ sv1 sv2 nb, sort_clockwise T.points [e1, e2, p1] = some sv1 ∧
      sort_clockwise T.points [e1, e2, p2] = some sv2 ∧
      T2 = ⟨T.points, (T.vertices.set t1 sv1).set t2 sv2, nb, T.edges.set eIdx (e1, e2)⟩ := by
  unfold flipGo at h
  repeat' split at h
  all_goals first
    | exact Except.noConfusion h
    | (rw [Except.ok.injEq] at h; subst h; exact ⟨_, _, _, by assumption, by assumption, rfl⟩)

theorem forall2_getD {α β : Type} {R : α → β → Prop} :
    ∀ {l1 : List α} {l2 : List β}, List.Forall₂ R l1 l2 →
      ∀ {i : ℕ} {d1 : α} {d2 : β}, i < l1.length → R (l1.getD i d1) (l2.getD i d2) := by
  intro l1 l2 h
  induction h with
  | nil => intro i d1 d2 hi; cases hi
  | cons hR htail ih =>
    intro i d1 d2 hi
    cases i with
    | zero => exact hR
    | succ i => exact ih (Nat.lt_of_succ_lt_succ hi)

theorem mapM_map_some {α β : Type} {f : α → Option β} {g : ℕ → α} {h : ℕ → β} :
    ∀ {σ : List ℕ}, (∀ k ∈ σ, f (g k) = some (h k)) → (σ.map g).mapM f = some (σ.map h) := by
  intro σ
  induction σ with
  | nil => intro _; rfl
  | cons k σ ih =>
    intro H
    rw [List.map_cons, List.map_cons, List.mapM_cons]
    rw [H k (List.mem_cons_self _ _), ih fun a ha => H a (List.mem_cons_of_mem _ ha)]
    rfl

theorem getD_map_lt {α β : Type} (f : α → β) {l : List α} {i : ℕ} (h : i < l.length)
    (d : α) (d' : β) : (l.map f).getD i d' = f (l.getD i d) := by
  rw [List.getD_eq_getElem?_getD, List.getD_eq_getElem?_getD, List.getElem?_map,
    List.getElem?_eq_getElem h]
  rfl

theorem npMean_perm {p q : List (ℚ × ℚ)} (h : List.Perm p q) : npMean p = npMean q := by
  unfold npMean
  rw [h.length_eq, (h.map Prod.fst).sum_eq, (h.map Prod.snd).sum_eq]

/-- Stability of the index sort: when two positions hold keys with
coincident `arctan2` value, their original order survives into the
`argsort`. -/
theorem argsort_stable (keys : List (ℚ × ℚ)) (i j : ℕ) (hij : i < j) (hj : j < keys.length)
    (h1 : ¬ atan2Lt (keys.getD i (0, 0)) (keys.getD j (0, 0)))
    (h2 : ¬ atan2Lt (keys.getD j (0, 0)) (keys.getD i (0, 0))) :
    [i, j].Sublist (argsort keys) := by
  apply List.pair_sublist_insertionSort
  · exact Or.inr ⟨h1, h2, Nat.le_of_lt hij⟩
  · have h1' : [i].Sublist (List.range j) := List.singleton_sublist.mpr (List.mem_range.mpr hij)
    have h2' : ([i] ++ [j]).Sublist (List.range j ++ [j]) := h1'.append (List.Sublist.refl [j])
    rw [← List.range_succ] at h2'
    exact h2'.trans (List.range_sublist.mpr hj)

/-- Idempotence: re-sorting an already clockwise-sorted vertex list
returns it unchanged. -/
theorem sort_clockwise_idem {points : List (ℚ × ℚ)} {vs l : List ℤ}
    (h : sort_clockwise points vs = some l) : sort_clockwise points l = some l := by
  unfold sort_clockwise at h ⊢
  simp only [Option.pure_def, Option.bind_eq_bind, Option.bind_eq_some, Option.some_inj] at h
  obtain ⟨p, hp, hl⟩ := h
  have hplen : p.length = vs.length := mapM_some_length hp
  set mykeys := p.map fun q => (q.1 - (npMean p).1, q.2 - (npMean p).2) with hkeysdef
  set σ := argsort mykeys with hσdef
  have hklen : mykeys.length = p.length := by rw [hkeysdef]; simp
  have hσsub : ∀ k ∈ σ, k < p.length := by
    intro k hk
    have hm := (argsort_perm mykeys).subset hk
    rw [List.mem_range, hklen] at hm
    exact hm
  set pp := σ.map (fun k => p.getD k ((0 : ℚ), (0 : ℚ))) with hppdef
  have hpp : l.mapM (pyGet? points) = some pp := by
    rw [← hl, hppdef]
    refine mapM_map_some ?_
    intro k hk
    exact forall2_getD (mapM_forall2 hp) (by rw [← hplen]; exact hσsub k hk)
  simp only [hpp, Option.pure_def, Option.bind_eq_bind, Option.some_bind, Option.some_inj]
  -- the second-pass keys are the first-pass keys permuted by `σ`
  have hpermp : List.Perm pp p := by
    rw [hppdef]
    refine ((argsort_perm mykeys).map _).trans ?_
    rw [hklen, map_getD_range p ((0 : ℚ), (0 : ℚ))]
  have hmean : npMean pp = npMean p := npMean_perm hpermp
  have hkeys2 : (pp.map fun q => (q.1 - (npMean pp).1, q.2 - (npMean pp).2))
      = σ.map fun k => mykeys.getD k (0, 0) := by
    rw [hmean, hppdef, List.map_map]
    refine List.map_congr_left ?_
    intro k hk
    simp only [Function.comp]
    rw [hkeysdef]
    exact (getD_map_lt (fun q => (q.1 - (npMean p).1, q.2 - (npMean p).2)) (hσsub k hk)
      ((0 : ℚ), (0 : ℚ)) ((0 : ℚ), (0 : ℚ))).symm
  rw [hkeys2]
  have hσlen : σ.length = mykeys.length := argsort_length mykeys
  have hrange : argsort (σ.map fun k => mykeys.getD k (0, 0)) =
      List.range σ.length := by
    have hlen2 : (σ.map fun k => mykeys.getD k (0, 0)).length = σ.length := by simp
    rw [argsort, hlen2]
    apply List.Sorted.insertionSort_eq
    refine List.pairwise_iff_getElem.mpr ?_
    intro a b ha hb hab
    rw [List.length_range] at ha hb
    have hσs := List.pairwise_iff_getElem.mp (argsort_sorted mykeys) a b ha hb hab
    have hga : (σ.map fun k => mykeys.getD k (0, 0)).getD a (0, 0)
        = mykeys.getD (σ.getD a 0) (0, 0) := getD_map_lt _ ha 0 (0, 0)
    have hgb : (σ.map fun k => mykeys.getD k (0, 0)).getD b (0, 0)
        = mykeys.getD (σ.getD b 0) (0, 0) := getD_map_lt _ hb 0 (0, 0)
    have hea : σ.getD a 0 = σ[a] := List.getD_eq_getElem σ 0 ha
    have heb : σ.getD b 0 = σ[b] := List.getD_eq_getElem σ 0 hb
    simp only [List.getElem_range, keyIdxLe, hga, hgb, hea, heb]
    rcases hσs with hlt | ⟨hn1, hn2, -⟩
    · exact Or.inl hlt
    · exact Or.inr ⟨hn1, hn2, Nat.le_of_lt hab⟩
  rw [hrange]
  have hllen : l.length = σ.length := by rw [← hl]; simp
  rw [← hllen, map_getD_range l 0]



/-! ### Evaluations of the source on the concrete instances -/

theorem sqTiling_eval :
    Tiling.mk_explicit sqPoints [[0, 1, 2], [0, 2, 3]] [[1], [0]] [(0, 2)] = some sqTiling := by
  simp [Tiling.mk_explicit, sort_clockwise, npMean, pyGet?, pyResolve, argsort, keyIdxLe,
    atan2Lt, atan2Class, List.insertionSort, List.orderedInsert, List.mapM.loop,
    sqPoints, sqTiling]
  norm_num [keyIdxLe, atan2Lt, atan2Class]

theorem sqTiling_flip_eval : sqTiling.flip 0 = FlipRes.err PyErr.nameError := by
  simp [Tiling.flip, flipGo, flipCandidates, outerScan, Tiling.ntiles, pySet?, pyGet?,
    pyResolve, sort_clockwise, npMean, argsort, keyIdxLe, atan2Lt, atan2Class,
    List.insertionSort, List.orderedInsert, List.mapM.loop, List.range_succ,
    List.foldlM_cons, List.foldlM_nil, Except.bind, Except.instMonad, Except.pure,
    sqPoints, sqTiling]

theorem oracleTri_eval :
    Tiling.mk_oracle triPoints [[0, 1, 2]] [[-1, -1, -1]] = some oracleTri := by
  simp [Tiling.mk_oracle, get_edges_of_tile, sort_clockwise, npMean, pyGet?, pyResolve,
    argsort, keyIdxLe, atan2Lt, atan2Class, List.insertionSort, List.orderedInsert,
    List.mapM.loop, triPoints, oracleTri]
  norm_num [keyIdxLe, atan2Lt, atan2Class]

theorem sc_tri_eval : sort_clockwise triPoints [0, 1, 2] = some [0, 2, 1] := by
  simp [sort_clockwise, npMean, pyGet?, pyResolve, argsort, keyIdxLe, atan2Lt, atan2Class,
    List.insertionSort, List.orderedInsert, List.mapM.loop, triPoints]
  norm_num [keyIdxLe, atan2Lt, atan2Class]

theorem dupTiling_eval :
    Tiling.mk_oracle triPoints [[0, 1, 2], [0, 1, 2]] [[-1, -1, -1], [-1, -1, -1]]
      = some dupTiling := by
  simp [Tiling.mk_oracle, get_edges_of_tile, sort_clockwise, npMean, pyGet?, pyResolve,
    argsort, keyIdxLe, atan2Lt, atan2Class, List.insertionSort, List.orderedInsert,
    List.mapM.loop, triPoints, dupTiling]
  norm_num [keyIdxLe, atan2Lt, atan2Class]

theorem Tz_eval :
    Tiling.mk_explicit zPoints [[0, 1, 2], [0, 2, 3], [4, 5, 6], [2, 4, 5]]
      [[2, -1], [2], [1, 9], [0, 7]] [(0, 2)] = some Tz := by
  simp [Tiling.mk_explicit, sort_clockwise, npMean, pyGet?, pyResolve, argsort, keyIdxLe,
    atan2Lt, atan2Class, List.insertionSort, List.orderedInsert, List.mapM.loop,
    zPoints, Tz]
  norm_num [keyIdxLe, atan2Lt, atan2Class]

theorem Tz_flip_eval : Tz.flip 0 = FlipRes.ok Tz2 := by
  simp [Tiling.flip, flipGo, flipCandidates, outerScan, Tiling.ntiles, pySet?, pyGet?,
    pyResolve, sort_clockwise, npMean, argsort, keyIdxLe, atan2Lt, atan2Class,
    List.insertionSort, List.orderedInsert, List.mapM.loop, List.range_succ,
    List.foldlM_cons, List.foldlM_nil, Except.bind, Except.instMonad, Except.pure,
    zPoints, Tz, Tz2]
  norm_num [keyIdxLe, atan2Lt, atan2Class]

/-! ### Claim C1 -/

/-- C1: the spec's concrete scenario — points `[(0,0),(1,0),(1,1),(0,1)]`,
triangles `{0,1,2}` and `{0,2,3}`, edge list `[(0,2)]` — does **not**
behave as claimed: `flip` on the shared edge finds the two tiles and the
new diagonal, but both tiles contain both edge endpoints, so the outer
neighbors `A`/`B`/`C`/`D` are never assigned and the call dies with a
`NameError` before rewriting any tile or the stored edge. -/
theorem flip_square_scenario_raises :
    Tiling.mk_explicit sqPoints [[0, 1, 2], [0, 2, 3]] [[1], [0]] [(0, 2)] = some sqTiling ∧
      sqTiling.flip 0 = FlipRes.err PyErr.nameError :=
  ⟨sqTiling_eval, sqTiling_flip_eval⟩

/-! ### Claim C2 -/

/-- C2: whenever the edge named by a resolvable index is not contained in
exactly two cardinality-3 tiles, `flip` reports the `NotFlippable`
condition and returns the Tiling state unchanged (`points`, `vertices`,
`neighbors`, `edges` and hence the derived counts are those of the
receiver, untouched). -/
theorem flip_not_two_triangles_leaves_unchanged (T : Tiling) (e : ℤ) (eIdx : ℕ)
    (hres : pyResolve T.edges.length e = some eIdx)
    (hc : (flipCandidates T (T.edges.getD eIdx (0, 0)).1 (T.edges.getD eIdx (0, 0)).2).length ≠ 2) :
    T.flip e = FlipRes.notFlippable T := by
  simp only [Tiling.flip, hres]
  rcases hl : flipCandidates T (T.edges.getD eIdx (0, 0)).1 (T.edges.getD eIdx (0, 0)).2 with
    _ | ⟨⟨t1, e1⟩, _ | ⟨⟨t2, e2⟩, rest⟩⟩
  · rfl
  · rfl
  · cases rest with
    | nil => exact absurd (by rw [hl]; rfl) hc
    | cons c cs => rfl

/-- C2 witness: flipping the boundary edge `(0, 1)` of a single
triangle (contained in one tile, not two) reports `NotFlippable` with
the state unchanged. -/
theorem flip_not_two_triangles_leaves_unchanged_witness :
    oneTriangle.flip 0 = FlipRes.notFlippable oneTriangle :=
  flip_not_two_triangles_leaves_unchanged oneTriangle 0 0 (by decide) (by decide)

/-! ### Claim C3 -/

/-- C3 counterexample: on the vertices-omitted (oracle) path the stored
vertex lists are **not** clockwise-ordered.  For the single
counter-clockwise oracle triangle `[0, 1, 2]` over
`[(0,0),(1,0),(0,1)]`, the constructor stores `[0, 1, 2]` verbatim,
while the clockwise-ordering routine maps it to `[0, 2, 1]` — the
stored list does not satisfy the clockwise-ordering predicate. -/
theorem oracle_path_vertices_not_clockwise :
    Tiling.mk_oracle triPoints [[0, 1, 2]] [[-1, -1, -1]] = some oracleTri ∧
      sort_clockwise oracleTri.points (oracleTri.vertices.getD 0 []) ≠
        some (oracleTri.vertices.getD 0 []) := by
  refine ⟨oracleTri_eval, ?_⟩
  have hs : sort_clockwise oracleTri.points (oracleTri.vertices.getD 0 []) = some [0, 2, 1] :=
    sc_tri_eval
  rw [hs]
  decide

/-- C3 amended: on the vertices-omitted path the constructor stores the
oracle's tile lists exactly as given; clockwise ordering is applied only
to the temporary copies used for edge derivation (on the
vertices-supplied path every stored list *is* clockwise-ordered). -/
theorem mk_oracle_stores_vertices_verbatim (points : List (ℚ × ℚ)) (tv tn : List (List ℤ))
    (T : Tiling) (h : Tiling.mk_oracle points tv tn = some T) : T.vertices = tv := by
  unfold Tiling.mk_oracle at h
  simp only [Option.pure_def, Option.bind_eq_bind, Option.bind_eq_some, Option.some_inj] at h
  obtain ⟨ess, -, h2⟩ := h
  exact h2 ▸ rfl

/-- C3 amended, witness at the concrete oracle input. -/
theorem mk_oracle_stores_vertices_verbatim_witness :
    Tiling.mk_oracle triPoints [[0, 1, 2]] [[-1, -1, -1]] = some oracleTri ∧
      oracleTri.vertices = [[0, 1, 2]] :=
  ⟨oracleTri_eval, mk_oracle_stores_vertices_verbatim _ _ _ _ oracleTri_eval⟩

/-! ### Claim C4 -/

/-- C4 counterexample: duplicate unordered pairs can survive edge
derivation.  When the oracle output repeats the triangle `[0, 1, 2]`,
both tiles contribute the ascending pair `(0, 2)` and the derived edge
list contains it twice. -/
theorem oracle_path_duplicate_edge :
    Tiling.mk_oracle triPoints [[0, 1, 2], [0, 1, 2]] [[-1, -1, -1], [-1, -1, -1]]
        = some dupTiling ∧
      List.count ((0 : ℤ), (2 : ℤ)) dupTiling.edges = 2 :=
  ⟨dupTiling_eval, by decide⟩

/-- C4 amended: every edge derived on the vertices-omitted path has
strictly ascending endpoints (`i < j`); uniqueness of the unordered
pairs is not enforced by the construction. -/
theorem mk_oracle_edges_ascending (points : List (ℚ × ℚ)) (tv tn : List (List ℤ))
    (T : Tiling) (h : Tiling.mk_oracle points tv tn = some T) :
    ∀ e ∈ T.edges, e.1 < e.2 := by
  unfold Tiling.mk_oracle at h
  simp only [Option.pure_def, Option.bind_eq_bind, Option.bind_eq_some, Option.some_inj] at h
  obtain ⟨ess, hm, h2⟩ := h
  intro e he
  rw [← h2] at he
  obtain ⟨es, hes, hee⟩ := List.mem_flatten.mp he
  obtain ⟨v, -, hfv⟩ := mapM_mem hm es hes
  simp only [Option.pure_def, Option.bind_eq_bind, Option.bind_eq_some, Option.some_inj] at hfv
  obtain ⟨sv, -, es0, -, hfil⟩ := hfv
  rw [← hfil] at hee
  exact of_decide_eq_true (List.mem_filter.mp hee).2

/-- C4 amended, witness at a concrete oracle input. -/
theorem mk_oracle_edges_ascending_witness :
    Tiling.mk_oracle triPoints [[0, 1, 2]] [[-1, -1, -1]] = some oracleTri ∧
      ∀ e ∈ oracleTri.edges, e.1 < e.2 :=
  ⟨oracleTri_eval, mk_oracle_edges_ascending _ _ _ _ oracleTri_eval⟩

/-! ### Claim C10 -/

/-- C10: the outer-neighbor search does not skip the `-1` sentinel.  In
`Tz` (whose first tile's neighbor list is `[2, -1]`), the membership
test `self.vertices[n]` with `n = -1` resolves to the **last** tile's
vertex list `[2, 5, 4]`; since that tile misses `p1 = 0`, the sentinel
`-1` itself is selected as outer neighbor `D`; the flip then completes
normally and the patch `self.neighbors[D] = …` rewrites the last tile's
neighbor list from `[0, 7]` to `[1, 7]` instead of failing. -/
theorem flip_sentinel_selected_and_mutates_last_tile :
    Tiling.mk_explicit zPoints [[0, 1, 2], [0, 2, 3], [4, 5, 6], [2, 4, 5]]
        [[2, -1], [2], [1, 9], [0, 7]] [(0, 2)] = some Tz ∧
      pyGet? Tz.vertices (-1) = some [2, 5, 4] ∧
      outerScan Tz [2, -1] 0 2 = Except.ok (some 2, some (-1)) ∧
      Tz.flip 0 = FlipRes.ok Tz2 ∧
      Tz.neighbors.getD 3 [] = [0, 7] ∧ Tz2.neighbors.getD 3 [] = [1, 7] :=
  ⟨Tz_eval, by decide, by rfl, Tz_flip_eval, by decide, by decide⟩

/-! ### Claim C6 -/

/-- C6: a successful `flip` on an all-triangles Tiling preserves
`ntiles`, `nedges` and `npoints`, keeps every tile a triangle (so the
total vertex count is `3 * ntiles`), leaves the vertex list of every
tile other than the two rewritten ones untouched, and leaves the
endpoints of every edge other than the flipped one untouched. -/
theorem flip_ok_preserves (T : Tiling) (e : ℤ) (eIdx : ℕ) (t1 t2 : ℕ) (e1 e2 : ℤ) (T2 : Tiling)
    (hres : pyResolve T.edges.length e = some eIdx)
    (hcand : flipCandidates T (T.edges.getD eIdx (0, 0)).1 (T.edges.getD eIdx (0, 0)).2
      = [(t1, e1), (t2, e2)])
    (htri : ∀ v ∈ T.vertices, v.length = 3)
    (hok : T.flip e = FlipRes.ok T2) :
    T2.ntiles = T.ntiles ∧ T2.nedges = T.nedges ∧ T2.npoints = T.npoints ∧
      (∀ v ∈ T2.vertices, v.length = 3) ∧
      (T2.vertices.map List.length).sum = 3 * T2.ntiles ∧
      (∀ t : ℕ, t ≠ t1 → t ≠ t2 → T2.vertices.getD t [] = T.vertices.getD t []) ∧
      (∀ i : ℕ, i ≠ eIdx → T2.edges.getD i (0, 0) = T.edges.getD i (0, 0)) := by
  simp only [Tiling.flip, hres, hcand] at hok
  cases hgo : flipGo T eIdx (T.edges.getD eIdx (0, 0)).1 (T.edges.getD eIdx (0, 0)).2 t1 t2 e1 e2
    with
  | error err => rw [hgo] at hok; exact FlipRes.noConfusion hok
  | ok T3 =>
    rw [hgo] at hok
    rw [FlipRes.ok.injEq] at hok
    subst hok
    obtain ⟨sv1, sv2, nb, hsv1, hsv2, rfl⟩ := flipGo_ok_shape hgo
    have hl1 : sv1.length = 3 := sort_clockwise_length hsv1
    have hl2 : sv2.length = 3 := sort_clockwise_length hsv2
    have hmem : ∀ v ∈ (T.vertices.set t1 sv1).set t2 sv2, v.length = 3 := by
      intro v hv
      rcases List.mem_or_eq_of_mem_set hv with hv | rfl
      · rcases List.mem_or_eq_of_mem_set hv with hv | rfl
        · exact htri v hv
        · exact hl1
      · exact hl2
    refine ⟨?_, ?_, ?_, hmem, ?_, ?_, ?_⟩
    · simp [Tiling.ntiles]
    · simp [Tiling.nedges]
    · simp [Tiling.npoints]
    · rw [sum_map_length_of_all_three hmem]
      simp [Tiling.ntiles]
    · intro t ht1 ht2
      show ((T.vertices.set t1 sv1).set t2 sv2).getD t [] = T.vertices.getD t []
      rw [getD_set_ne _ _ _ (fun hh => ht2 hh.symm), getD_set_ne _ _ _ (fun hh => ht1 hh.symm)]
    · intro i hi
      show (T.edges.set eIdx (e1, e2)).getD i (0, 0) = T.edges.getD i (0, 0)
      rw [getD_set_ne _ _ _ (fun hh => hi hh.symm)]

/-- C6 witness: the successful flip of edge `0` of `Tz`. -/
theorem flip_ok_preserves_witness :
    Tz.flip 0 = FlipRes.ok Tz2 ∧ Tz2.ntiles = Tz.ntiles ∧ Tz2.nedges = Tz.nedges ∧
      Tz2.npoints = Tz.npoints ∧ (Tz2.vertices.map List.length).sum = 3 * Tz2.ntiles := by
  have h := flip_ok_preserves Tz 0 0 0 1 1 3 Tz2 (by rfl) (by decide) (by decide) Tz_flip_eval
  exact ⟨Tz_flip_eval, h.1, h.2.1, h.2.2.1, h.2.2.2.2.1⟩

/-! ### Claim C7 -/



theorem sc_tie_eval : sort_clockwise tiePoints [0, 1, 2, 3] = some [0, 3, 1, 2] := by
  simp [sort_clockwise, npMean, pyGet?, pyResolve, argsort, keyIdxLe, atan2Lt, atan2Class,
    List.insertionSort, List.orderedInsert, List.mapM.loop, tiePoints]
  norm_num [keyIdxLe, atan2Lt, atan2Class]

/-- C7: (stability) when two positions of the key array hold coincident
`arctan2` angles, their relative input order survives into the sorted
index array, so the ordering is deterministic; (idempotence)
re-applying `sort_clockwise` to an already clockwise-ordered vertex
list returns it unchanged. -/
theorem sort_clockwise_stable_idempotent :
    (∀ (keys : List (ℚ × ℚ)) (i j : ℕ), i < j → j < keys.length →
        ¬ atan2Lt (keys.getD i (0, 0)) (keys.getD j (0, 0)) →
        ¬ atan2Lt (keys.getD j (0, 0)) (keys.getD i (0, 0)) →
        [i, j].Sublist (argsort keys)) ∧
      (∀ (points : List (ℚ × ℚ)) (vs l : List ℤ),
        sort_clockwise points vs = some l → sort_clockwise points l = some l) :=
  ⟨argsort_stable, fun _ _ _ h => sort_clockwise_idem h⟩

/-- C7 witness: positions `1` and `2` of `tieKeys` hold the same key;
they stay in input order in the argsort, and the sorted list
`[0, 3, 1, 2]` re-sorts to itself. -/
theorem sort_clockwise_stable_idempotent_witness :
    [1, 2].Sublist (argsort tieKeys) ∧
      sort_clockwise tiePoints [0, 3, 1, 2] = some [0, 3, 1, 2] :=
  ⟨sort_clockwise_stable_idempotent.1 tieKeys 1 2 (by norm_num) (by norm_num [tieKeys])
      (by norm_num [tieKeys, atan2Lt, atan2Class]) (by norm_num [tieKeys, atan2Lt, atan2Class]),
    sort_clockwise_stable_idempotent.2 tiePoints [0, 1, 2, 3] [0, 3, 1, 2] sc_tie_eval⟩

/-! ### Claim C9 -/



/-- C9: a `get_dual` call leaves the receiver's entire state unchanged
and its value is exactly the freshly constructed dual Tiling of
`Tiling.get_dual`. -/
theorem get_dual_frame (T : Tiling) :
    (get_dualS T).2 = T ∧ (get_dualS T).1 = T.get_dual := by
  constructor
  · rfl
  · show (match dualPoints T, dualEdges T, dualVerts T, dualNeighbors T with
      | some dp, some de, some dv, some dn => Tiling.mk_explicit dp dv dn de
      | _, _, _, _ => none) = T.get_dual
    unfold Tiling.get_dual
    rcases dualPoints T with _ | dp <;> rcases dualEdges T with _ | de <;>
      rcases dualVerts T with _ | dv <;> rcases dualNeighbors T with _ | dn <;> rfl

/-- C9 witness: evaluated on the single-triangle tiling. -/
theorem get_dual_frame_witness :
    (get_dualS oneTriangle).2 = oneTriangle ∧
      (get_dualS oneTriangle).1 = oneTriangle.get_dual :=
  get_dual_frame oneTriangle

/-! ### Claim C8 -/

theorem mapM_eq_map_some {α β : Type} (f : α → Option β) (h : α → β) :
    ∀ (σ : List α), (∀ a ∈ σ, f a = some (h a)) → σ.mapM f = some (σ.map h) := by
  intro σ
  induction σ with
  | nil => intro _; rfl
  | cons a σ ih =>
    intro H
    rw [List.map_cons, List.mapM_cons, H a (List.mem_cons_self _ _),
      ih fun x hx => H x (List.mem_cons_of_mem _ hx)]
    rfl

theorem pyGet?_natCast {α : Type} (l : List α) (k : ℕ) (h : k < l.length) (d : α) :
    pyGet? l (k : ℤ) = some (l.getD k d) := by
  unfold pyGet? pyResolve
  have h1 : (k : ℤ) < l.length := by exact_mod_cast h
  rw [if_pos ⟨Int.natCast_nonneg k, h1⟩]
  simp [List.getD_eq_getElem?_getD, List.getElem?_eq_getElem h]

theorem sum_map_range_single (F : ℕ → ℕ) (t : ℕ) (hF : ∀ x, x ≠ t → F x = 0) :
    ∀ n, ((List.range n).map F).sum = if t < n then F t else 0 := by
  intro n
  induction n with
  | zero => simp
  | succ n ih =>
    rw [List.range_succ, List.map_append, List.sum_append]
    simp only [List.map_cons, List.map_nil, List.sum_cons, List.sum_nil, ih]
    rcases eq_or_ne n t with rfl | hne
    · rw [if_neg (lt_irrefl _), if_pos (Nat.lt_succ_self _)]
      omega
    · rw [hF n hne]
      split_ifs <;> omega

theorem count_map_pair (c n : ℤ) (l : List ℤ) :
    List.count (c, n) (l.map fun m => (c, m)) = List.count n l := by
  induction l with
  | nil => rfl
  | cons a l ih => simp [List.count_cons, ih, Prod.ext_iff]

/-- Under the row-count hypothesis, `dualEdges` succeeds and emits, for
each tile `t` in order, the pairs `(t, n)` over the filtered neighbor
row. -/
theorem dualEdges_some (T : Tiling) (hn : T.ntiles ≤ T.neighbors.length) :
    dualEdges T = some (((List.range T.ntiles).map fun t =>
      ((T.neighbors.getD t []).filter fun n => decide (0 ≤ n ∧ n < (t : ℤ))).map
        fun n => ((t : ℤ), n)).flatten) := by
  have hpoint : ∀ t ∈ List.range T.ntiles,
      (do
        let row ← pyGet? T.neighbors (t : ℤ)
        pure ((row.filter fun n => decide (0 ≤ n ∧ n < (t : ℤ))).map fun n => ((t : ℤ), n)))
        = some (((T.neighbors.getD t []).filter fun n => decide (0 ≤ n ∧ n < (t : ℤ))).map
            fun n => ((t : ℤ), n)) := by
    intro t ht
    have htlen : t < T.neighbors.length := lt_of_lt_of_le (List.mem_range.mp ht) hn
    rw [pyGet?_natCast T.neighbors t htlen []]
    rfl
  unfold dualEdges
  rw [mapM_eq_map_some _ _ _ hpoint]
  rfl

/-- C8: in `get_dual`, a dual edge `[t, n]` is emitted exactly when the
neighbor entry `n` of tile `t` satisfies `0 ≤ n < t` (so sentinels and
larger-index neighbors are skipped): for duplicate-free neighbor rows
the multiplicity of `(t, n)` in the emitted dual edge list is `1` when
`t < ntiles`, `0 ≤ n < t` and `n` is a neighbor of `t`, and `0`
otherwise; consequently every mutually adjacent unordered pair of tiles
yields exactly one dual edge. -/
theorem dual_edges_emitted_once (T : Tiling) (hn : T.ntiles ≤ T.neighbors.length)
    (hnd : ∀ row ∈ T.neighbors, row.Nodup) :
    (dualEdges T).isSome = true ∧
      (∀ (t : ℕ) (n : ℤ), ((dualEdges T).getD []).count ((t : ℤ), n) =
        if t < T.ntiles ∧ 0 ≤ n ∧ n < (t : ℤ) ∧ n ∈ T.neighbors.getD t [] then 1 else 0) ∧
      (∀ a b : ℕ, a < b → b < T.ntiles → (a : ℤ) ∈ T.neighbors.getD b [] →
        ((dualEdges T).getD []).count ((b : ℤ), (a : ℤ))
          + ((dualEdges T).getD []).count ((a : ℤ), (b : ℤ)) = 1) := by
  have hDE := dualEdges_some T hn
  have hcount : ∀ (t : ℕ) (n : ℤ), ((dualEdges T).getD []).count ((t : ℤ), n) =
      if t < T.ntiles ∧ 0 ≤ n ∧ n < (t : ℤ) ∧ n ∈ T.neighbors.getD t [] then 1 else 0 := by
    intro t n
    rw [hDE]
    show (((List.range T.ntiles).map fun t' =>
        ((T.neighbors.getD t' []).filter fun m => decide (0 ≤ m ∧ m < (t' : ℤ))).map
          fun m => ((t' : ℤ), m)).flatten).count ((t : ℤ), n) = _
    rw [List.count_flatten, List.map_map]
    have hzero : ∀ t', t' ≠ t →
        (List.count ((t : ℤ), n) ∘ fun t' =>
          ((T.neighbors.getD t' []).filter fun m => decide (0 ≤ m ∧ m < (t' : ℤ))).map
            fun m => ((t' : ℤ), m)) t' = 0 := by
      intro t' hne
      refine List.count_eq_zero_of_not_mem ?_
      intro hmem
      obtain ⟨m, -, hm⟩ := List.mem_map.mp hmem
      have : (t' : ℤ) = (t : ℤ) := congrArg Prod.fst hm
      exact hne (by exact_mod_cast this)
    rw [sum_map_range_single _ t hzero T.ntiles]
    have hFt : (List.count ((t : ℤ), n) ∘ fun t' =>
        ((T.neighbors.getD t' []).filter fun m => decide (0 ≤ m ∧ m < (t' : ℤ))).map
          fun m => ((t' : ℤ), m)) t
        = if 0 ≤ n ∧ n < (t : ℤ) ∧ n ∈ T.neighbors.getD t [] then 1 else 0 := by
      simp only [Function.comp]
      rw [count_map_pair]
      rcases Classical.em (0 ≤ n ∧ n < (t : ℤ)) with hc | hc
      · rw [List.count_filter (by simpa using hc)]
        rcases Classical.em (n ∈ T.neighbors.getD t []) with hm | hm
        · rw [if_pos ⟨hc.1, hc.2, hm⟩]
          refine List.count_eq_one_of_mem ?_ hm
          rcases Nat.lt_or_ge t T.neighbors.length with hlen | hlen
          · refine hnd _ ?_
            rw [List.getD_eq_getElem T.neighbors [] hlen]
            exact List.getElem_mem hlen
          · rw [List.getD_eq_default _ _ hlen]
            exact List.nodup_nil
        · rw [if_neg fun hh => hm hh.2.2]
          exact List.count_eq_zero_of_not_mem hm
      · rw [if_neg fun hh => hc ⟨hh.1, hh.2.1⟩]
        refine List.count_eq_zero_of_not_mem ?_
        intro hmem
        exact hc (by simpa using (List.mem_filter.mp hmem).2)
    rw [hFt]
    split_ifs <;> first | rfl | tauto
  refine ⟨by rw [hDE]; rfl, hcount, ?_⟩
  intro a b hab hb hmem
  rw [hcount, hcount]
  have hcast : (a : ℤ) < (b : ℤ) := by exact_mod_cast hab
  rw [if_pos ⟨hb, Int.natCast_nonneg a, hcast, hmem⟩,
    if_neg ?_]
  · rintro ⟨-, -, hlt, -⟩
    exact absurd hlt (not_lt.mpr (le_of_lt hcast))

/-- C8 witness: on `Tz`, only the qualifying neighbor entries
(`1 ∈ neighbors[2]` and `0 ∈ neighbors[3]`) produce dual edges, each
exactly once. -/
theorem dual_edges_emitted_once_witness :
    (dualEdges Tz).isSome = true ∧
      ((dualEdges Tz).getD []).count ((2 : ℤ), (1 : ℤ)) = 1 ∧
      ((dualEdges Tz).getD []).count ((3 : ℤ), (2 : ℤ)) = 0 := by
  obtain ⟨h1, h2, -⟩ := dual_edges_emitted_once Tz (by decide) (by decide)
  refine ⟨h1, ?_, ?_⟩
  · have h := h2 2 1
    rw [if_pos (by decide)] at h
    exact h
  · have h := h2 3 2
    rw [if_neg (by decide)] at h
    exact h

/-! ### Claim C5 -/

theorem getD_set_eq {α : Type} (l : List α) {k : ℕ} (a d : α) (h : k < l.length) :
    (l.set k a).getD k d = a := by
  rw [List.getD_eq_getElem (l.set k a) d (by simpa using h)]
  simp

theorem getD_replicate_nil (np q : ℕ) :
    (List.replicate np ([] : List ℤ)).getD q [] = [] := by
  rcases Nat.lt_or_ge q np with h | h
  · rw [List.getD_eq_getElem _ _ (by simpa using h)]
    simp
  · exact List.getD_eq_default _ _ (by simpa using h)

theorem pyGet?_toNat {α : Type} (l : List α) (i : ℤ) (h0 : 0 ≤ i) (hl : i < (l.length : ℤ))
    (d : α) : pyGet? l i = some (l.getD i.toNat d) := by
  unfold pyGet? pyResolve
  rw [if_pos ⟨h0, hl⟩]
  have ht : i.toNat < l.length := by omega
  simp [List.getD_eq_getElem?_getD, List.getElem?_eq_getElem ht]

theorem pyAppendAt_nonneg {acc : List (List ℤ)} {i : ℤ} (h0 : 0 ≤ i)
    (hl : i < (acc.length : ℤ)) (x : ℤ) :
    pyAppendAt acc i x = some (acc.set i.toNat (acc.getD i.toNat [] ++ [x])) := by
  unfold pyAppendAt pyResolve
  rw [if_pos ⟨h0, hl⟩]
  rfl

/-- The inner `dvertices[v].append(t)` loop of `get_dual`, over one
tile's vertex list: it succeeds, preserves length, and adds `t` exactly
to the rows indexed by members of `v`. -/
theorem dvert_inner_fold (np : ℕ) (t : ℕ) :
    ∀ (v : List ℤ) (acc : List (List ℤ)), acc.length = np →
      (∀ i ∈ v, 0 ≤ i ∧ i < (np : ℤ)) →
      ∃ acc2, v.foldlM (fun a i => pyAppendAt a i (t : ℤ)) acc = some acc2 ∧
        acc2.length = np ∧
        ∀ (q : ℕ) (z : ℤ), q < np →
          (z ∈ acc2.getD q [] ↔ z ∈ acc.getD q [] ∨ (z = (t : ℤ) ∧ (q : ℤ) ∈ v)) := by
  intro v
  induction v with
  | nil =>
    intro acc hlen _
    exact ⟨acc, rfl, hlen, fun q z _ => by simp⟩
  | cons i v ih =>
    intro acc hlen hval
    obtain ⟨h0, hi⟩ := hval i (List.mem_cons_self _ _)
    have hi' : i < (acc.length : ℤ) := by rw [hlen]; exact hi
    have hitlt : i.toNat < acc.length := by omega
    obtain ⟨acc2, hfold, hlen2, hmem⟩ := ih (acc.set i.toNat (acc.getD i.toNat [] ++ [(t : ℤ)]))
      (by simp [hlen]) (fun j hj => hval j (List.mem_cons_of_mem _ hj))
    refine ⟨acc2, ?_, hlen2, ?_⟩
    · rw [List.foldlM_cons, pyAppendAt_nonneg h0 hi']
      simpa using hfold
    · intro q z hq
      rw [hmem q z hq]
      rcases eq_or_ne i.toNat q with heq | hne
      · subst heq
        rw [getD_set_eq _ _ _ hitlt]
        have hcast : ((i.toNat : ℕ) : ℤ) = i := Int.toNat_of_nonneg h0
        rw [List.mem_append, List.mem_singleton]
        constructor
        · rintro ((hz | hz) | ⟨hz, hq'⟩)
          · exact Or.inl hz
          · exact Or.inr ⟨hz, by rw [hcast]; exact List.mem_cons_self _ _⟩
          · exact Or.inr ⟨hz, List.mem_cons_of_mem _ hq'⟩
        · rintro (hz | ⟨hz, -⟩)
          · exact Or.inl (Or.inl hz)
          · exact Or.inl (Or.inr hz)
      · rw [getD_set_ne _ _ _ hne]
        have hqne : ((q : ℕ) : ℤ) ≠ i := by
          intro hqe
          exact hne (by omega)
        constructor
        · rintro (hz | ⟨hz, hq'⟩)
          · exact Or.inl hz
          · exact Or.inr ⟨hz, List.mem_cons_of_mem _ hq'⟩
        · rintro (hz | ⟨hz, hq'⟩)
          · exact Or.inl hz
          · rcases List.mem_cons.mp hq' with hq'' | hq''
            · exact absurd hq'' hqne
            · exact Or.inr ⟨hz, hq''⟩

/-- The outer `dvertices` loop over the first `k` tiles. -/
theorem dvert_outer_fold (T : Tiling)
    (h2 : ∀ v ∈ T.vertices, ∀ i ∈ v, 0 ≤ i ∧ i < (T.npoints : ℤ)) :
    ∀ k, k ≤ T.ntiles →
      ∃ acc, (List.range k).foldlM
          (fun acc t => (T.vertices.getD t []).foldlM (fun a v => pyAppendAt a v (t : ℤ)) acc)
          (List.replicate T.npoints []) = some acc ∧
        acc.length = T.npoints ∧
        ∀ (q : ℕ) (z : ℤ), q < T.npoints →
          (z ∈ acc.getD q [] ↔
            ∃ t : ℕ, t < k ∧ z = (t : ℤ) ∧ (q : ℤ) ∈ T.vertices.getD t []) := by
  intro k
  induction k with
  | zero =>
    intro _
    refine ⟨List.replicate T.npoints [], rfl, by simp, ?_⟩
    intro q z hq
    rw [getD_replicate_nil]
    simp
  | succ k ih =>
    intro hk
    obtain ⟨acc, hfold, hlen, hmem⟩ := ih (Nat.le_of_succ_le hk)
    have hkt : k < T.ntiles := hk
    have hval : ∀ i ∈ T.vertices.getD k [], 0 ≤ i ∧ i < (T.npoints : ℤ) := by
      intro i hi
      refine h2 _ ?_ i hi
      rw [List.getD_eq_getElem T.vertices [] hkt]
      exact List.getElem_mem hkt
    obtain ⟨acc2, hfold2, hlen2, hmem2⟩ :=
      dvert_inner_fold T.npoints k (T.vertices.getD k []) acc hlen hval
    refine ⟨acc2, ?_, hlen2, ?_⟩
    · rw [List.range_succ, List.foldlM_append, hfold]
      simpa using hfold2
    · intro q z hq
      rw [hmem2 q z hq, hmem q z hq]
      constructor
      · rintro (⟨t, ht, hz, hmem'⟩ | ⟨hz, hmem'⟩)
        · exact ⟨t, Nat.lt_succ_of_lt ht, hz, hmem'⟩
        · exact ⟨k, Nat.lt_succ_self _, hz, hmem'⟩
      · rintro ⟨t, ht, hz, hmem'⟩
        rcases Nat.lt_succ_iff_lt_or_eq.mp ht with ht' | rfl
        · exact Or.inl ⟨t, ht', hz, hmem'⟩
        · exact Or.inr ⟨hz, hmem'⟩

/-- `dualVerts` succeeds on valid vertex data and row `q` holds exactly
the tiles whose vertex list contains point `q`. -/
theorem dualVerts_spec (T : Tiling)
    (h2 : ∀ v ∈ T.vertices, ∀ i ∈ v, 0 ≤ i ∧ i < (T.npoints : ℤ)) :
    ∃ dv, dualVerts T = some dv ∧ dv.length = T.npoints ∧
      ∀ (q : ℕ) (z : ℤ), q < T.npoints →
        (z ∈ dv.getD q [] ↔
          ∃ t : ℕ, t < T.ntiles ∧ z = (t : ℤ) ∧ (q : ℤ) ∈ T.vertices.getD t []) :=
  dvert_outer_fold T h2 T.ntiles (le_refl _)

/-- The `dneighbors` fold succeeds whenever all edge endpoints resolve. -/
theorem dualNeighbors_some (T : Tiling)
    (h4 : ∀ e ∈ T.edges, (0 ≤ e.1 ∧ e.1 < (T.npoints : ℤ)) ∧
      (0 ≤ e.2 ∧ e.2 < (T.npoints : ℤ))) :
    ∃ dn, dualNeighbors T = some dn := by
  suffices h : ∀ (es : List (ℤ × ℤ)) (acc : List (List ℤ)), acc.length = T.npoints →
      (∀ e ∈ es, (0 ≤ e.1 ∧ e.1 < (T.npoints : ℤ)) ∧ (0 ≤ e.2 ∧ e.2 < (T.npoints : ℤ))) →
      ∃ acc2, es.foldlM
          (fun acc e => (pyAppendAt acc e.1 e.2).bind fun acc1 => pyAppendAt acc1 e.2 e.1)
          acc = some acc2 by
    exact h T.edges (List.replicate T.npoints []) (by simp) h4
  intro es
  induction es with
  | nil => intro acc _ _; exact ⟨acc, rfl⟩
  | cons e es ih =>
    intro acc hlen hval
    obtain ⟨⟨h10, h11⟩, h20, h21⟩ := hval e (List.mem_cons_self _ _)
    have he1 : e.1 < (acc.length : ℤ) := by rw [hlen]; exact h11
    have he2lt : e.2 < ((acc.set e.1.toNat (acc.getD e.1.toNat [] ++ [e.2])).length : ℤ) := by
      rw [List.length_set, hlen]; exact h21
    obtain ⟨acc2, hfold⟩ := ih (((acc.set e.1.toNat (acc.getD e.1.toNat [] ++ [e.2]))).set
        e.2.toNat (((acc.set e.1.toNat (acc.getD e.1.toNat [] ++ [e.2]))).getD e.2.toNat []
          ++ [e.1]))
      (by simp [hlen]) (fun x hx => hval x (List.mem_cons_of_mem _ hx))
    refine ⟨acc2, ?_⟩
    rw [List.foldlM_cons, pyAppendAt_nonneg h10 he1]
    simp only [Option.some_bind, pyAppendAt_nonneg h20 he2lt]
    simpa using hfold

/-- `dualPoints` succeeds on valid vertex data and returns the per-tile
mass centres. -/
theorem dualPoints_some (T : Tiling)
    (h2 : ∀ v ∈ T.vertices, ∀ i ∈ v, 0 ≤ i ∧ i < (T.npoints : ℤ)) :
    dualPoints T = some ((List.range T.ntiles).map fun t =>
      npMean ((T.vertices.getD t []).map fun i => T.points.getD i.toNat (0, 0))) := by
  unfold dualPoints
  refine mapM_eq_map_some _ _ _ ?_
  intro t ht
  have hval : ∀ i ∈ T.vertices.getD t [], 0 ≤ i ∧ i < (T.npoints : ℤ) := by
    intro i hi
    refine h2 _ ?_ i hi
    rw [List.getD_eq_getElem T.vertices [] (List.mem_range.mp ht)]
    exact List.getElem_mem (List.mem_range.mp ht)
  have hmm : (T.vertices.getD t []).mapM (pyGet? T.points)
      = some ((T.vertices.getD t []).map fun i => T.points.getD i.toNat (0, 0)) := by
    refine mapM_eq_map_some _ _ _ ?_
    intro i hi
    exact pyGet?_toNat T.points i (hval i hi).1 (hval i hi).2 (0, 0)
  rw [hmm]
  rfl

theorem mapM_isSome {α β : Type} (f : α → Option β) :
    ∀ (σ : List α), (∀ a ∈ σ, ∃ b, f a = some b) →
      ∃ l2, σ.mapM f = some l2 ∧ List.Forall₂ (fun a b => f a = some b) σ l2 := by
  intro σ
  induction σ with
  | nil => intro _; exact ⟨[], rfl, List.Forall₂.nil⟩
  | cons a σ ih =>
    intro H
    obtain ⟨b, hb⟩ := H a (List.mem_cons_self _ _)
    obtain ⟨l2, hl2, hF⟩ := ih fun x hx => H x (List.mem_cons_of_mem _ hx)
    refine ⟨b :: l2, ?_, List.Forall₂.cons hb hF⟩
    rw [List.mapM_cons, hb, hl2]
    rfl

/-- `sort_clockwise` succeeds whenever every index resolves. -/
theorem sort_clockwise_isSome {points : List (ℚ × ℚ)} {vs : List ℤ}
    (h : ∀ i ∈ vs, 0 ≤ i ∧ i < (points.length : ℤ)) :
    ∃ l, sort_clockwise points vs = some l := by
  unfold sort_clockwise
  have hmm : vs.mapM (pyGet? points) = some (vs.map fun i => points.getD i.toNat (0, 0)) := by
    refine mapM_eq_map_some _ _ _ ?_
    intro i hi
    exact pyGet?_toNat points i (h i hi).1 (h i hi).2 (0, 0)
  rw [hmm]
  exact ⟨_, rfl⟩

set_option maxHeartbeats 1600000 in
/-- C5: under index validity, `get_dual` succeeds; the dual has one
point per original tile (`npoints = ntiles`), dual point `t` is the
arithmetic-mean centroid of tile `t`'s vertex coordinates, and the
vertex set of dual tile `p` is exactly the set of original tile indices
whose vertex list contains `p`.  (The nonemptiness hypothesis keeps the
centroid meaningful: NumPy's mean of an empty tile would be `NaN`.) -/
theorem get_dual_spec (T : Tiling)
    (h1 : ∀ v ∈ T.vertices, v ≠ [])
    (h2 : ∀ v ∈ T.vertices, ∀ i ∈ v, 0 ≤ i ∧ i < (T.npoints : ℤ))
    (h3 : T.ntiles ≤ T.neighbors.length)
    (h4 : ∀ e ∈ T.edges, (0 ≤ e.1 ∧ e.1 < (T.npoints : ℤ)) ∧
      (0 ≤ e.2 ∧ e.2 < (T.npoints : ℤ))) :
    ∃ D, T.get_dual = some D ∧
      D.npoints = T.ntiles ∧
      (∀ t, t < T.ntiles → D.points.getD t (0, 0) =
        npMean ((T.vertices.getD t []).map fun i => T.points.getD i.toNat (0, 0))) ∧
      (∀ p : ℕ, p < T.npoints → ∀ t : ℕ,
        ((t : ℤ) ∈ D.vertices.getD p [] ↔
          t < T.ntiles ∧ (p : ℤ) ∈ T.vertices.getD t [])) := by
  obtain ⟨dv, hdv, hdvlen, hdvmem⟩ := dualVerts_spec T h2
  obtain ⟨dn, hdn⟩ := dualNeighbors_some T h4
  have hdp := dualPoints_some T h2
  have hde := dualEdges_some T h3
  -- every row of `dv` holds valid indices into the dual points
  have hdprange : ∀ row ∈ dv, ∀ z ∈ row, 0 ≤ z ∧
      z < ((((List.range T.ntiles).map fun t =>
        npMean ((T.vertices.getD t []).map fun i => T.points.getD i.toNat (0, 0))).length : ℕ)
          : ℤ) := by
    intro row hrow z hz
    obtain ⟨q, hq, hrow'⟩ := List.mem_iff_getElem.mp hrow
    have hq' : q < T.npoints := by rw [← hdvlen]; exact hq
    have hzq : z ∈ dv.getD q [] := by
      rw [List.getD_eq_getElem dv [] hq, hrow']
      exact hz
    obtain ⟨t, ht, rfl, -⟩ := (hdvmem q z hq').mp hzq
    constructor
    · exact Int.natCast_nonneg t
    · simpa using ht
  obtain ⟨dvs, hdvs, hFvs⟩ := mapM_isSome
    (sort_clockwise ((List.range T.ntiles).map fun t =>
      npMean ((T.vertices.getD t []).map fun i => T.points.getD i.toNat (0, 0)))) dv
    (fun row hrow => sort_clockwise_isSome (hdprange row hrow))
  refine ⟨⟨(List.range T.ntiles).map fun t =>
      npMean ((T.vertices.getD t []).map fun i => T.points.getD i.toNat (0, 0)),
    dvs, dn, ((List.range T.ntiles).map fun t =>
      ((T.neighbors.getD t []).filter fun n => decide (0 ≤ n ∧ n < (t : ℤ))).map
        fun n => ((t : ℤ), n)).flatten⟩, ?_, ?_, ?_, ?_⟩
  · unfold Tiling.get_dual Tiling.mk_explicit
    rw [hdp]
    simp only [Option.pure_def, Option.bind_eq_bind, Option.some_bind]
    rw [hde]
    simp only [Option.some_bind]
    rw [hdv]
    simp only [Option.some_bind]
    rw [hdn]
    simp only [Option.some_bind]
    rw [hdvs]
    simp only [Option.some_bind]
  · show ((List.range T.ntiles).map _).length = T.ntiles
    simp
  · intro t ht
    show (((List.range T.ntiles).map fun t =>
      npMean ((T.vertices.getD t []).map fun i => T.points.getD i.toNat (0, 0))).getD t (0, 0))
      = _
    rw [getD_map_lt _ (by simpa using ht) 0 (0, 0),
      List.getD_eq_getElem (List.range T.ntiles) 0 (by simpa using ht)]
    simp
  · intro p hp t
    show (t : ℤ) ∈ dvs.getD p [] ↔ _
    have hplen : p < dv.length := by rw [hdvlen]; exact hp
    have hsc : sort_clockwise _ (dv.getD p []) = some (dvs.getD p []) :=
      forall2_getD hFvs hplen
    rw [(sort_clockwise_perm hsc).mem_iff, hdvmem p _ hp]
    constructor
    · rintro ⟨t', ht', hz, hmem'⟩
      have : t = t' := by exact_mod_cast hz
      subst this
      exact ⟨ht', hmem'⟩
    · rintro ⟨ht', hmem'⟩
      exact ⟨t, ht', rfl, hmem'⟩



theorem oneTriangle_dual_eval : oneTriangle.get_dual = some oneTriDual := by
  simp [Tiling.get_dual, dualPoints, dualEdges, dualVerts, dualNeighbors, pyAppendAt,
    Tiling.mk_explicit, Tiling.ntiles, Tiling.npoints, sort_clockwise, npMean, pyGet?, pyResolve,
    argsort, keyIdxLe, atan2Lt, atan2Class, List.insertionSort, List.orderedInsert,
    List.mapM.loop, List.range_succ, List.foldlM_cons, List.foldlM_nil,
    triPoints, oneTriangle, oneTriDual]

/-- C5 witness: the dual of the single triangle, via `get_dual_spec`. -/
theorem get_dual_spec_witness :
    oneTriangle.get_dual = some oneTriDual ∧ oneTriDual.npoints = oneTriangle.ntiles := by
  obtain ⟨D, hD, hnp, -, -⟩ :=
    get_dual_spec oneTriangle (by decide) (by decide) (by decide) (by decide)
  rw [oneTriangle_dual_eval] at hD
  rw [← Option.some_inj.mp hD] at hnp
  exact ⟨oneTriangle_dual_eval, hnp⟩

end TEMimage
